import Mathlib

/-!
Verification of the ThinkStats conditional-probability core
(`ThinkStats/conditional.py` and `ThinkStats/myplot.py`).

Masses and values are embedded as rationals `ℚ`; a Python `dict` is an
association list `List (ℚ × ℚ)` (keys unique, which is stated as a
hypothesis where a theorem needs it).  Fallible operations return
`Except`.  The `Pmf` class and the `risk` module are imported by
`conditional.py` but their sources are not part of the repository
snapshot; their operations are modelled from the specification
(section 4.1 and 4.4 / section 7) and each such definition is marked
`Modelled from the spec:` in its doc comment.
-/

namespace ThinkStats

/-- Modelled from the spec: the error taxonomy of section 7.
`EmptyDistributionError` is the DivisionByZero-class error raised by
`Normalize` on zero total mass; `DivisionByZeroError` is raised by the
relative-risk computation when the denominator probability is 0. -/
inductive PmfError where
  | EmptyDistributionError
  | DivisionByZeroError
  deriving DecidableEq, Repr

/-- A Distribution (the `Pmf` class of the missing `Pmf` module): a mapping
from value to mass, plus a display name.  The mapping is a Python dict,
embedded as an association list. -/
structure Pmf where
  d : List (ℚ × ℚ)
  name : String
  deriving DecidableEq, Repr

namespace Pmf

/-- Lookup in an association list: the mass stored for `v`, or 0 if absent
(`self.d.get(x, 0)` on a Python dict). -/
def probOf : List (ℚ × ℚ) → ℚ → ℚ
  | [], _ => 0
  | kv :: rest, v => if v = kv.1 then kv.2 else probOf rest v

/-- Modelled from the spec: `Prob(value) -> float` returns the mass
associated with `value`, or 0.0 if absent; it never errors. -/
def Prob (p : Pmf) (v : ℚ) : ℚ := probOf p.d v

/-- Modelled from the spec: `Values()` produces the values present in the
mapping (the dict keys). -/
def Values (p : Pmf) : List ℚ := p.d.map (fun kv => kv.1)

/-- Modelled from the spec: `Copy(name)` returns a new Distribution with an
identical mapping and the given name, sharing no mutable state. -/
def Copy (p : Pmf) (name : String) : Pmf := ⟨p.d, name⟩

/-- Deletion of a key from an association list (Python dict deletion). -/
def removeKey : List (ℚ × ℚ) → ℚ → List (ℚ × ℚ)
  | [], _ => []
  | kv :: rest, v => if v = kv.1 then removeKey rest v else kv :: removeKey rest v

/-- Modelled from the spec: `Remove(value)` deletes the entry for `value`
from the mapping if present, and is a no-op if absent. -/
def Remove (p : Pmf) (v : ℚ) : Pmf := ⟨removeKey p.d v, p.name⟩

/-- Total mass of the mapping (the `Total()` helper `Normalize` divides by). -/
def Total (p : Pmf) : ℚ := (p.d.map (fun kv => kv.2)).sum

/-- Modelled from the spec: `Normalize()` rescales every mass by
`1 / total_mass` so the masses sum to 1, and fails with a
DivisionByZero-class error if the total mass is 0. -/
def Normalize (p : Pmf) : Except PmfError Pmf :=
  if p.Total = 0 then .error .EmptyDistributionError
  else .ok ⟨p.d.map (fun kv => (kv.1, kv.2 / p.Total)), p.name⟩

end Pmf

/-- `ConditionPmf` from `conditional.py`: copy the pmf under the new name,
collect the values of the original satisfying `filter_func`, remove each of
them from the copy, then normalize the copy. -/
def ConditionPmf (pmf : Pmf) (filter_func : ℚ → Bool)
    (name : String := "conditional") : Except PmfError Pmf :=
  let cond_pmf := pmf.Copy name
  let vals := pmf.Values.filter filter_func
  let cond_pmf := vals.foldl (fun acc val => acc.Remove val) cond_pmf
  cond_pmf.Normalize

/-- `ConditionOnWeeks` from `conditional.py`: `ConditionPmf` with the local
predicate `filter_func(x) = x < week`; `week` defaults to 39 and the name
to `'conditional'`. -/
def ConditionOnWeeks (pmf : Pmf) (week : ℚ := 39)
    (name : String := "conditional") : Except PmfError Pmf :=
  ConditionPmf pmf (fun x => decide (x < week)) name

/-- A frequency table as passed to `RelativeRisk`; the code only touches its
`pmf` attribute. -/
structure Table where
  pmf : Pmf
  deriving DecidableEq, Repr

/-- Modelled from the spec: `risk.ComputeRelativeRisk` (the `risk` module is
not in the repository snapshot).  Per section 4.4, the relative risk is the
ratio `first_cond.Prob(week) / other_cond.Prob(week)`; per section 7 a zero
denominator is a reportable DivisionByZero error. -/
def ComputeRelativeRisk (first_cond other_cond : Pmf) (week : ℚ) :
    Except PmfError ℚ :=
  if other_cond.Prob week = 0 then .error .DivisionByZeroError
  else .ok (first_cond.Prob week / other_cond.Prob week)

/-- `RelativeRisk` from `conditional.py`: conditions both tables' pmfs on
`week`, hands the results to the risk collaborator, discards its value and
executes the bare `return` — the Python function returns `None` (embedded
as `none`); the `myplot.Pmfs` call after the `return` is unreachable. -/
def RelativeRisk (first others : Table) (week : ℚ := 38) :
    Except PmfError (Option ℚ) := do
  let first_cond ← ConditionOnWeeks first.pmf week "first babies"
  let other_cond ← ConditionOnWeeks others.pmf week "others"
  let _ ← ComputeRelativeRisk first_cond other_cond week
  return none

/-!
A store-based rendering of the same code, used to settle the aliasing /
frame claims: Python `Pmf` objects live on a heap, references are indices
into a `Store`, `Copy` allocates a fresh object and `Remove` / `Normalize`
mutate the object behind one reference.
-/

/-- A heap of `Pmf` objects; a reference is an index into the list. -/
abbrev Store := List Pmf

/-- The object behind reference `r` (callers only use valid references). -/
def getObj : Store → Nat → Pmf
  | [], _ => ⟨[], ""⟩
  | o :: _, 0 => o
  | _ :: rest, n + 1 => getObj rest n

/-- Overwrite the object behind reference `r`. -/
def setObj : Store → Nat → Pmf → Store
  | [], _, _ => []
  | _ :: rest, 0, o => o :: rest
  | x :: rest, n + 1, o => x :: setObj rest n o

/-- Allocate a fresh object, returning its reference and the new store. -/
def alloc (s : Store) (o : Pmf) : Nat × Store := (s.length, s ++ [o])

/-- `Copy(name)` on the heap: read the source object, allocate a fresh
object with an identical mapping and the given name. -/
def CopyS (s : Store) (r : Nat) (name : String) : Nat × Store :=
  alloc s ⟨(getObj s r).d, name⟩

/-- `Remove(val)` on the heap: mutate the object behind `r` in place. -/
def RemoveS (s : Store) (r : Nat) (v : ℚ) : Store :=
  setObj s r ((getObj s r).Remove v)

/-- `Normalize()` on the heap: mutate the object behind `r` in place, or
fail on zero total mass. -/
def NormalizeS (s : Store) (r : Nat) : Except PmfError Store :=
  match (getObj s r).Normalize with
  | .error e => .error e
  | .ok o => .ok (setObj s r o)

/-- `ConditionPmf` on the heap, statement by statement from
`conditional.py`: `cond_pmf = pmf.Copy(name)`; `vals = [val for val in
pmf.Values() if filter_func(val)]` (read off the original object); a loop
of `cond_pmf.Remove(val)`; `cond_pmf.Normalize()`; return `cond_pmf`. -/
def ConditionPmfS (s : Store) (r : Nat) (filter_func : ℚ → Bool)
    (name : String) : Except PmfError (Nat × Store) :=
  let rs := CopyS s r name
  let vals := (getObj rs.2 r).Values.filter filter_func
  let s2 := vals.foldl (fun st val => RemoveS st rs.1 val) rs.2
  match NormalizeS s2 rs.1 with
  | .error e => .error e
  | .ok s3 => .ok (rs.1, s3)

/-!
Embedding of `myplot.Hist`.  `Render()` is external input (it yields the
`xs, fs` pair), so `Hist` is a function of those two lists.  Python raises
`ValueError` on `min` of an empty sequence, and `NameError` when an
identifier resolves neither in the local nor in the module scope.
-/

inductive PlotError where
  | ValueError
  | NameError
  deriving DecidableEq, Repr

namespace myplot

/-- `Diff` from `myplot.py`: `[t[i+1] - t[i] for i in range(len(t)-1)]`. -/
def Diff (t : List ℚ) : List ℚ :=
  (List.range (t.length - 1)).map (fun i => t.getD (i + 1) 0 - t.getD i 0)

/-- Python's `min` on a sequence: `ValueError` (here `none`) on an empty
sequence, otherwise the least element. -/
def listMin : List ℚ → Option ℚ
  | [] => none
  | x :: rest => some (rest.foldl min x)

/-- The local names bound in the body of `Hist` when the bar call runs. -/
def histLocalNames : List String := ["hist", "options", "xs", "fs", "width"]

/-- The names bound at module scope in `myplot.py`. -/
def myplotGlobalNames : List String :=
  ["math", "matplotlib", "pyplot", "np", "InfiniteList", "Underride", "Clf",
   "Plot", "Pmf", "Pmfs", "Hist", "Hists", "Shift", "Diff", "Cdf", "Cdfs",
   "Contour", "Config", "Show", "Save", "SaveFormat"]

/-- Python name resolution for an identifier inside `Hist`'s body. -/
def resolves (ident : String) : Bool :=
  ident ∈ histLocalNames || ident ∈ myplotGlobalNames

/-- `Hist` from `myplot.py`, on the `(xs, fs)` pair produced by
`hist.Render()`: computes `width = min(Diff(xs))` (a `ValueError` when
`Diff(xs)` is empty), underrides the `options` dict, then executes
`pyplot.bar(xs, fs, **bar_options)` — the identifier `bar_options` is
bound nowhere, so the call raises `NameError` instead of plotting. -/
def Hist (xs fs : List ℚ) : Except PlotError Unit :=
  match listMin (Diff xs) with
  | none => .error .ValueError
  | some _width =>
    if resolves "bar_options" then .ok () else .error .NameError

end myplot

/-!
Helper lemmas: a characterization of `ConditionPmf` as filter-then-normalize,
and elementary facts about `probOf`, totals and keys of association lists.
-/

theorem Pmf.removeKey_eq_filter (d : List (ℚ × ℚ)) (v : ℚ) :
    Pmf.removeKey d v = d.filter (fun kv => !decide (v = kv.1)) := by
  induction d with
  | nil => rfl
  | cons kv rest ih =>
    by_cases h : v = kv.1
    · subst h; simp [Pmf.removeKey, ih]
    · simp [Pmf.removeKey, h, ih]

theorem foldl_Remove_eq_filter (vals : List ℚ) (p : Pmf) :
    vals.foldl (fun acc val => acc.Remove val) p =
      ⟨p.d.filter (fun kv => !decide (kv.1 ∈ vals)), p.name⟩ := by
  induction vals generalizing p with
  | nil => simp
  | cons v vs ih =>
    rw [List.foldl_cons, ih]
    show Pmf.mk ((Pmf.removeKey p.d v).filter _) p.name = _
    rw [Pmf.removeKey_eq_filter, List.filter_filter]
    congr 1
    apply List.filter_congr
    intro kv _
    by_cases h1 : kv.1 = v
    · have h1v : v = kv.1 := h1.symm
      subst h1v
      simp [List.mem_cons]
    · have h1v : ¬ v = kv.1 := fun e => h1 e.symm
      by_cases h2 : kv.1 ∈ vs <;> simp [List.mem_cons, h1, h1v, h2]

theorem ConditionPmf_eq (pmf : Pmf) (filter_func : ℚ → Bool) (name : String) :
    ConditionPmf pmf filter_func name =
      Pmf.Normalize ⟨pmf.d.filter (fun kv => !filter_func kv.1), name⟩ := by
  have hstep : ConditionPmf pmf filter_func name =
      (List.foldl (fun acc val => acc.Remove val) (pmf.Copy name)
        (pmf.Values.filter filter_func)).Normalize := rfl
  rw [hstep, foldl_Remove_eq_filter]
  congr 2
  apply List.filter_congr
  intro kv hkv
  have hmem : kv.1 ∈ pmf.Values := List.mem_map_of_mem _ hkv
  simp [List.mem_filter, hmem]

theorem Normalize_ok (p : Pmf) (h : p.Total ≠ 0) :
    p.Normalize =
      .ok ⟨p.d.map (fun kv => (kv.1, kv.2 / p.Total)), p.name⟩ := by
  simp [Pmf.Normalize, h]

theorem Normalize_error_iff (p : Pmf) :
    p.Normalize = .error .EmptyDistributionError ↔ p.Total = 0 := by
  by_cases h : p.Total = 0 <;> simp [Pmf.Normalize, h]

theorem probOf_scale (d : List (ℚ × ℚ)) (c v : ℚ) :
    Pmf.probOf (d.map (fun kv => (kv.1, kv.2 / c))) v = Pmf.probOf d v / c := by
  induction d with
  | nil => simp [Pmf.probOf]
  | cons kv rest ih =>
    by_cases h : v = kv.1 <;> simp [Pmf.probOf, h, ih]

theorem probOf_not_mem (d : List (ℚ × ℚ)) (v : ℚ)
    (h : v ∉ d.map (fun kv => kv.1)) : Pmf.probOf d v = 0 := by
  induction d with
  | nil => rfl
  | cons kv rest ih =>
    simp only [List.map_cons, List.mem_cons, not_or] at h
    simp [Pmf.probOf, h.1, ih h.2]

theorem sum_probOf_keys (d : List (ℚ × ℚ))
    (hnd : (d.map (fun kv => kv.1)).Nodup) :
    ((d.map (fun kv => kv.1)).map (Pmf.probOf d)).sum =
      (d.map (fun kv => kv.2)).sum := by
  induction d with
  | nil => rfl
  | cons kv rest ih =>
    rw [List.map_cons, List.nodup_cons] at hnd
    simp only [List.map_cons, List.sum_cons]
    have h1 : Pmf.probOf (kv :: rest) kv.1 = kv.2 := by simp [Pmf.probOf]
    have h2 : (rest.map (fun kv2 => kv2.1)).map (Pmf.probOf (kv :: rest)) =
        (rest.map (fun kv2 => kv2.1)).map (Pmf.probOf rest) := by
      apply List.map_congr_left
      intro k hk
      have hne : ¬ (k = kv.1) := fun e => hnd.1 (e ▸ hk)
      simp [Pmf.probOf, hne]
    rw [h1, h2, ih hnd.2]

theorem sum_map_scale (d : List (ℚ × ℚ)) (c : ℚ) :
    ((d.map (fun kv => (kv.1, kv.2 / c))).map (fun kv => kv.2)).sum =
      (d.map (fun kv => kv.2)).sum / c := by
  induction d with
  | nil => simp
  | cons kv rest ih =>
    simp only [List.map_cons, List.sum_cons, ih, add_div]

theorem keys_filter_comm (d : List (ℚ × ℚ)) (q : ℚ → Bool) :
    (d.filter (fun kv => q kv.1)).map (fun kv => kv.1) =
      (d.map (fun kv => kv.1)).filter q := by
  induction d with
  | nil => rfl
  | cons kv rest ih => by_cases h : q kv.1 <;> simp [h, ih]

theorem keys_map_scale (d : List (ℚ × ℚ)) (c : ℚ) :
    (d.map (fun kv => (kv.1, kv.2 / c))).map (fun kv => kv.1) =
      d.map (fun kv => kv.1) := by
  simp [List.map_map]

theorem nodup_keys_filter (d : List (ℚ × ℚ)) (q : ℚ × ℚ → Bool)
    (hnd : (d.map (fun kv => kv.1)).Nodup) :
    ((d.filter q).map (fun kv => kv.1)).Nodup := by
  have hs : List.Sublist ((d.filter q).map (fun kv => kv.1))
      (d.map (fun kv => kv.1)) :=
    List.Sublist.map (fun kv => kv.1) (List.filter_sublist d)
  exact List.Nodup.sublist hs hnd

theorem total_filter_pos (pmf : Pmf) (filter_func : ℚ → Bool)
    (hpos : ∀ kv ∈ pmf.d, 0 < kv.2)
    (hsurv : ∃ v ∈ pmf.Values, filter_func v = false) :
    0 < ((pmf.d.filter (fun kv => !filter_func kv.1)).map
          (fun kv => kv.2)).sum := by
  obtain ⟨v, hv, hfv⟩ := hsurv
  obtain ⟨kv, hkv, hfst⟩ := List.mem_map.mp hv
  apply List.sum_pos
  · intro m hm
    obtain ⟨kv2, hkv2, rfl⟩ := List.mem_map.mp hm
    exact hpos kv2 (List.mem_filter.mp hkv2).1
  · have hmem : kv ∈ pmf.d.filter (fun kv2 => !filter_func kv2.1) :=
      List.mem_filter.mpr ⟨hkv, by simp [hfst, hfv]⟩
    intro he
    rw [List.map_eq_nil_iff] at he
    exact absurd (he ▸ hmem) (List.not_mem_nil kv)

theorem getObj_append_lt (s : Store) (o : Pmf) (q : Nat) (h : q < s.length) :
    getObj (s ++ [o]) q = getObj s q := by
  induction s generalizing q with
  | nil => exact absurd h (Nat.not_lt_zero q)
  | cons x rest ih =>
    cases q with
    | zero => rfl
    | succ n => exact ih n (Nat.lt_of_succ_lt_succ h)

theorem getObj_append_len (s : Store) (o : Pmf) :
    getObj (s ++ [o]) s.length = o := by
  induction s with
  | nil => rfl
  | cons x rest ih => exact ih

theorem getObj_setObj_ne (s : Store) (r q : Nat) (o : Pmf) (h : q ≠ r) :
    getObj (setObj s r o) q = getObj s q := by
  induction s generalizing r q with
  | nil => rfl
  | cons x rest ih =>
    cases r with
    | zero =>
      cases q with
      | zero => exact absurd rfl h
      | succ n => rfl
    | succ m =>
      cases q with
      | zero => rfl
      | succ n => exact ih m n (fun e => h (congrArg Nat.succ e))

theorem foldl_RemoveS_getObj_ne (vals : List ℚ) (s : Store) (rr q : Nat)
    (h : q ≠ rr) :
    getObj (vals.foldl (fun st val => RemoveS st rr val) s) q = getObj s q := by
  induction vals generalizing s with
  | nil => rfl
  | cons v vs ih =>
    rw [List.foldl_cons, ih]
    exact getObj_setObj_ne s rr q _ h

theorem NormalizeS_ok_getObj_ne (s s2 : Store) (rr q : Nat) (h : q ≠ rr)
    (hok : NormalizeS s rr = .ok s2) : getObj s2 q = getObj s q := by
  unfold NormalizeS at hok
  cases hN : (getObj s rr).Normalize with
  | error e => rw [hN] at hok; exact absurd hok (by simp)
  | ok o =>
    rw [hN] at hok
    injection hok with hok
    subst hok
    exact getObj_setObj_ne s rr q o h

theorem sum_Prob_normalized (p q : Pmf) (hkeys : p.Values.Nodup)
    (hT : p.Total ≠ 0) (h : p.Normalize = .ok q) :
    (q.Values.map q.Prob).sum = 1 := by
  rw [Normalize_ok p hT] at h
  injection h with h
  subst h
  have hnd : ((p.d.map (fun kv => (kv.1, kv.2 / p.Total))).map
      (fun kv => kv.1)).Nodup := by
    rw [keys_map_scale]; exact hkeys
  have hsum := sum_probOf_keys (p.d.map (fun kv => (kv.1, kv.2 / p.Total))) hnd
  show (((p.d.map (fun kv => (kv.1, kv.2 / p.Total))).map (fun kv => kv.1)).map
      (Pmf.probOf (p.d.map (fun kv => (kv.1, kv.2 / p.Total))))).sum = 1
  rw [hsum, sum_map_scale]
  exact div_self hT

theorem ConditionPmf_ok_values (pmf : Pmf) (filter_func : ℚ → Bool)
    (name : String) (cond : Pmf)
    (h : ConditionPmf pmf filter_func name = .ok cond) :
    cond.Values = pmf.Values.filter (fun v => !filter_func v) := by
  rw [ConditionPmf_eq] at h
  unfold Pmf.Normalize at h
  by_cases hT :
      (⟨pmf.d.filter (fun kv => !filter_func kv.1), name⟩ : Pmf).Total = 0
  · rw [if_pos hT] at h
    exact absurd h (by simp)
  · rw [if_neg hT] at h
    injection h with h
    subst h
    show ((pmf.d.filter (fun kv => !filter_func kv.1)).map
        (fun kv => (kv.1, kv.2 /
          (⟨pmf.d.filter (fun kv => !filter_func kv.1), name⟩ : Pmf).Total))).map
      (fun kv => kv.1) = pmf.Values.filter (fun v => !filter_func v)
    rw [keys_map_scale]
    exact keys_filter_comm pmf.d (fun v => !filter_func v)

/-- Claim C1: for every Distribution `pmf`, predicate `filter_func` and
`name`, `ConditionPmf(pmf, filter_func, name)` returns a new Distribution
whose support is exactly the values of `pmf` on which `filter_func` is
false (satisfying values are removed), renormalized so the surviving
masses sum to 1, assuming at least one value survives (stated for a proper
dict: distinct keys, positive masses). -/
theorem ConditionPmf_filters_and_renormalizes (pmf : Pmf)
    (filter_func : ℚ → Bool) (name : String)
    (hkeys : pmf.Values.Nodup)
    (hpos : ∀ kv ∈ pmf.d, 0 < kv.2)
    (hsurv : ∃ v ∈ pmf.Values, filter_func v = false) :
    ∃ cond, ConditionPmf pmf filter_func name = .ok cond ∧
      cond.Values = pmf.Values.filter (fun v => !filter_func v) ∧
      (cond.Values.map cond.Prob).sum = 1 ∧
      cond.name = name := by
  have hT : (⟨pmf.d.filter (fun kv => !filter_func kv.1), name⟩ : Pmf).Total
      ≠ 0 := (total_filter_pos pmf filter_func hpos hsurv).ne'
  have hok : ConditionPmf pmf filter_func name =
      .ok ⟨(pmf.d.filter (fun kv => !filter_func kv.1)).map
        (fun kv => (kv.1, kv.2 /
          (⟨pmf.d.filter (fun kv => !filter_func kv.1), name⟩ : Pmf).Total)),
        name⟩ := by
    rw [ConditionPmf_eq]
    exact Normalize_ok _ hT
  refine ⟨_, hok, ConditionPmf_ok_values pmf filter_func name _ hok, ?_, rfl⟩
  exact sum_Prob_normalized
    ⟨pmf.d.filter (fun kv => !filter_func kv.1), name⟩ _
    (nodup_keys_filter pmf.d _ hkeys) hT (Normalize_ok _ hT)

theorem ConditionPmf_filters_and_renormalizes_witness :
    ((⟨[(35, 1), (38, 9)], "w"⟩ : Pmf).Values.Nodup ∧
     (∀ kv ∈ (⟨[(35, 1), (38, 9)], "w"⟩ : Pmf).d, 0 < kv.2) ∧
     (∃ v ∈ (⟨[(35, 1), (38, 9)], "w"⟩ : Pmf).Values,
        (fun x : ℚ => decide (x < 38)) v = false)) ∧
    ∃ cond, ConditionPmf ⟨[(35, 1), (38, 9)], "w"⟩
        (fun x : ℚ => decide (x < 38)) "c" = .ok cond ∧
      cond.Values = (⟨[(35, 1), (38, 9)], "w"⟩ : Pmf).Values.filter
        (fun v => !(fun x : ℚ => decide (x < 38)) v) ∧
      (cond.Values.map cond.Prob).sum = 1 ∧
      cond.name = "c" :=
  ⟨⟨by decide, by decide, by decide⟩,
    ConditionPmf_filters_and_renormalizes ⟨[(35, 1), (38, 9)], "w"⟩
      (fun x : ℚ => decide (x < 38)) "c" (by decide) (by decide) (by decide)⟩

/-- Claim C3: on a Distribution with a nonempty mapping, `ConditionPmf` with
a predicate that is true for every value removes everything, and `Normalize`
raises the EmptyDistributionError (DivisionByZero-class, zero total mass),
which propagates to the caller instead of a silent zero-mass result. -/
theorem ConditionPmf_all_true_raises (pmf : Pmf) (name : String)
    (hne : pmf.d ≠ []) :
    ConditionPmf pmf (fun _ => true) name =
      .error .EmptyDistributionError := by
  rw [ConditionPmf_eq, Normalize_error_iff]
  show ((pmf.d.filter fun kv => !(fun _ : ℚ => true) kv.1).map
      (fun kv => kv.2)).sum = 0
  simp

theorem ConditionPmf_all_true_raises_witness :
    (⟨[(35, 1), (36, 1)], "w"⟩ : Pmf).d ≠ [] ∧
    ConditionPmf ⟨[(35, 1), (36, 1)], "w"⟩ (fun _ => true) "c" =
      .error .EmptyDistributionError :=
  ⟨by decide,
    ConditionPmf_all_true_raises ⟨[(35, 1), (36, 1)], "w"⟩ "c" (by decide)⟩

/-- Claim C4: for every Distribution with positive total mass (and distinct
dict keys), `Normalize` succeeds and afterwards the probabilities over
`Values()` sum to exactly 1; `Normalize` fails with the DivisionByZero-class
error exactly when the total mass is 0. -/
theorem Normalize_sums_to_one_iff_error (p : Pmf) (hkeys : p.Values.Nodup) :
    (0 < p.Total →
      ∃ q, p.Normalize = .ok q ∧ (q.Values.map q.Prob).sum = 1) ∧
    (p.Normalize = .error .EmptyDistributionError ↔ p.Total = 0) := by
  refine ⟨fun hpos => ⟨_, Normalize_ok p hpos.ne', ?_⟩, Normalize_error_iff p⟩
  exact sum_Prob_normalized p _ hkeys hpos.ne' (Normalize_ok p hpos.ne')

theorem Normalize_sums_to_one_iff_error_witness :
    (⟨[(1, 2), (2, 6)], "w"⟩ : Pmf).Values.Nodup ∧
    ((0 < (⟨[(1, 2), (2, 6)], "w"⟩ : Pmf).Total →
      ∃ q, (⟨[(1, 2), (2, 6)], "w"⟩ : Pmf).Normalize = .ok q ∧
        (q.Values.map q.Prob).sum = 1) ∧
     ((⟨[(1, 2), (2, 6)], "w"⟩ : Pmf).Normalize =
        .error .EmptyDistributionError ↔
      (⟨[(1, 2), (2, 6)], "w"⟩ : Pmf).Total = 0)) :=
  ⟨by decide, Normalize_sums_to_one_iff_error ⟨[(1, 2), (2, 6)], "w"⟩ (by decide)⟩

/-- Claim C5: `ConditionOnWeeks(pmf, week, name)` equals `ConditionPmf` with
the predicate `filter_func(x) = x < week` — on success its support is the
values `>= week`, renormalized — with `week` defaulting to 39 and the output
name defaulting to `'conditional'`. -/
theorem ConditionOnWeeks_specializes_ConditionPmf (pmf : Pmf) (week : ℚ)
    (name : String) :
    ConditionOnWeeks pmf week name =
      ConditionPmf pmf (fun x => decide (x < week)) name ∧
    ConditionOnWeeks pmf = ConditionOnWeeks pmf 39 "conditional" ∧
    ConditionOnWeeks pmf 39 "conditional" =
      ConditionPmf pmf (fun x => decide (x < 39)) "conditional" ∧
    ∀ cond, ConditionOnWeeks pmf week name = .ok cond →
      cond.Values = pmf.Values.filter (fun v => decide (week ≤ v)) := by
  refine ⟨rfl, rfl, rfl, fun cond hok => ?_⟩
  have h := ConditionPmf_ok_values pmf (fun x => decide (x < week)) name cond hok
  rw [h]
  apply List.filter_congr
  intro v _
  rw [← decide_not]
  exact decide_eq_decide.mpr not_lt

theorem ConditionOnWeeks_specializes_witness :
    ConditionOnWeeks ⟨[(38, 1), (39, 1)], "w"⟩ 38 "conditional" =
      .ok ⟨[(38, 1/2), (39, 1/2)], "conditional"⟩ ∧
    (⟨[(38, 1/2), (39, 1/2)], "conditional"⟩ : Pmf).Values =
      (⟨[(38, 1), (39, 1)], "w"⟩ : Pmf).Values.filter
        (fun v => decide ((38 : ℚ) ≤ v)) := by
  have hEval : ConditionOnWeeks ⟨[(38, 1), (39, 1)], "w"⟩ 38 "conditional" =
      .ok ⟨[(38, 1/2), (39, 1/2)], "conditional"⟩ := by
    norm_num [ConditionOnWeeks, ConditionPmf, Pmf.Copy, Pmf.Values, Pmf.Remove,
      Pmf.removeKey, Pmf.Normalize, Pmf.Total, List.filter, List.foldl]
  exact ⟨hEval,
    (ConditionOnWeeks_specializes_ConditionPmf ⟨[(38, 1), (39, 1)], "w"⟩ 38
      "conditional").2.2.2 _ hEval⟩

/-- Claim C6: on the Distribution with mapping 35↦0.1, 36↦0.1, 37↦0.2,
38↦0.3, 39↦0.3, `ConditionOnWeeks(pmf, week=38)` removes 35, 36, 37 (total
removed mass 0.4), leaving 38↦0.3, 39↦0.3 renormalized to 38↦0.5, 39↦0.5,
so `Prob(38)` on the result equals 0.5. -/
theorem ConditionOnWeeks_concrete_scenario :
    ConditionOnWeeks
        ⟨[(35, 1/10), (36, 1/10), (37, 2/10), (38, 3/10), (39, 3/10)], "weeks"⟩
        38 "conditional" =
      .ok ⟨[(38, 1/2), (39, 1/2)], "conditional"⟩ ∧
    (⟨[(38, 1/2), (39, 1/2)], "conditional"⟩ : Pmf).Prob 38 = 1/2 ∧
    (⟨[(35, 1/10), (36, 1/10), (37, 2/10), (38, 3/10), (39, 3/10)],
        "weeks"⟩ : Pmf).Prob 35 +
      (⟨[(35, 1/10), (36, 1/10), (37, 2/10), (38, 3/10), (39, 3/10)],
        "weeks"⟩ : Pmf).Prob 36 +
      (⟨[(35, 1/10), (36, 1/10), (37, 2/10), (38, 3/10), (39, 3/10)],
        "weeks"⟩ : Pmf).Prob 37 = 4/10 := by
  refine ⟨?_, ?_, ?_⟩ <;>
    norm_num [ConditionOnWeeks, ConditionPmf, Pmf.Copy, Pmf.Values,
      Pmf.Remove, Pmf.removeKey, Pmf.Normalize, Pmf.Total, Pmf.Prob,
      Pmf.probOf, List.filter, List.foldl]

/-- Claim C7: with a predicate false on every value nothing is removed, so
on a Distribution whose masses already sum to 1, `ConditionPmf` renormalizes
by 1 and every probability is unchanged. -/
theorem ConditionPmf_noop_preserves (pmf : Pmf) (name : String)
    (hsum : pmf.Total = 1) :
    ∃ cond, ConditionPmf pmf (fun _ => false) name = .ok cond ∧
      ∀ v, cond.Prob v = pmf.Prob v := by
  have hd : pmf.d.filter (fun kv => !(fun _ : ℚ => false) kv.1) = pmf.d := by
    simp
  have hT : (⟨pmf.d.filter (fun kv => !(fun _ : ℚ => false) kv.1), name⟩ :
      Pmf).Total = 1 := by
    rw [hd]; exact hsum
  rw [ConditionPmf_eq]
  refine ⟨_, Normalize_ok _ (by rw [hT]; exact one_ne_zero), fun v => ?_⟩
  show Pmf.probOf ((pmf.d.filter (fun kv => !(fun _ : ℚ => false) kv.1)).map
      (fun kv => (kv.1, kv.2 /
        (⟨pmf.d.filter (fun kv => !(fun _ : ℚ => false) kv.1), name⟩ :
          Pmf).Total))) v = pmf.Prob v
  rw [probOf_scale, hT, div_one, hd]
  rfl

theorem ConditionPmf_noop_preserves_witness :
    (⟨[(35, 1)], "w"⟩ : Pmf).Total = 1 ∧
    ∃ cond, ConditionPmf ⟨[(35, 1)], "w"⟩ (fun _ => false) "c" = .ok cond ∧
      ∀ v, cond.Prob v = (⟨[(35, 1)], "w"⟩ : Pmf).Prob v := by
  have h1 : (⟨[(35, 1)], "w"⟩ : Pmf).Total = 1 := by simp [Pmf.Total]
  exact ⟨h1, ConditionPmf_noop_preserves ⟨[(35, 1)], "w"⟩ "c" h1⟩

/-- Claim C9: `Prob` on a value absent from the mapping returns exactly 0;
it is a total function of the Distribution and the value, so an absent-value
lookup is not an error condition. -/
theorem Prob_absent_is_zero (p : Pmf) (v : ℚ) (h : v ∉ p.Values) :
    p.Prob v = 0 :=
  probOf_not_mem p.d v h

theorem Prob_absent_is_zero_witness :
    (37 : ℚ) ∉ (⟨[(35, 1), (38, 9)], "w"⟩ : Pmf).Values ∧
    (⟨[(35, 1), (38, 9)], "w"⟩ : Pmf).Prob 37 = 0 :=
  ⟨by decide, Prob_absent_is_zero ⟨[(35, 1), (38, 9)], "w"⟩ 37 (by decide)⟩

/-- Claim C2 counterexample: with first = 38↦0.4, 39↦0.6 and others =
38↦0.5, 39↦0.5 at week 38 (the spec's own scenario, ratio 0.4/0.5 = 0.8),
`RelativeRisk` does not return the relative-risk ratio: the Python function
ends in a bare `return`, so its result is None. -/
theorem RelativeRisk_result_counterexample :
    RelativeRisk ⟨⟨[(38, 4/10), (39, 6/10)], "f"⟩⟩
        ⟨⟨[(38, 1/2), (39, 1/2)], "o"⟩⟩ 38 ≠ .ok (some (8/10)) ∧
    RelativeRisk ⟨⟨[(38, 4/10), (39, 6/10)], "f"⟩⟩
        ⟨⟨[(38, 1/2), (39, 1/2)], "o"⟩⟩ 38 = .ok none := by
  have h : RelativeRisk ⟨⟨[(38, 4/10), (39, 6/10)], "f"⟩⟩
      ⟨⟨[(38, 1/2), (39, 1/2)], "o"⟩⟩ 38 = .ok none := by
    norm_num [RelativeRisk, ConditionOnWeeks, ConditionPmf, Pmf.Copy,
      Pmf.Values, Pmf.Remove, Pmf.removeKey, Pmf.Normalize, Pmf.Total,
      Pmf.Prob, Pmf.probOf, ComputeRelativeRisk, List.filter, List.foldl,
      Bind.bind, Except.bind, pure, Except.pure]
  refine ⟨by rw [h]; simp, h⟩

/-- Claim C2 (amended): `RelativeRisk` conditions `first.pmf` and
`others.pmf` on `week` under the names 'first babies' and 'others' and hands
both to the risk collaborator, which computes the dimensionless ratio
`first_cond.Prob(week) / other_cond.Prob(week)`; `RelativeRisk` itself
discards that value and returns None. -/
theorem RelativeRisk_computes_ratio_returns_none (first others : Table)
    (week : ℚ) (first_cond other_cond : Pmf)
    (h1 : ConditionOnWeeks first.pmf week "first babies" = .ok first_cond)
    (h2 : ConditionOnWeeks others.pmf week "others" = .ok other_cond)
    (h3 : other_cond.Prob week ≠ 0) :
    RelativeRisk first others week = .ok none ∧
    ComputeRelativeRisk first_cond other_cond week =
      .ok (first_cond.Prob week / other_cond.Prob week) := by
  constructor
  · unfold RelativeRisk
    rw [h1, h2]
    simp [Bind.bind, Except.bind, ComputeRelativeRisk, h3, pure, Except.pure]
  · simp [ComputeRelativeRisk, h3]

theorem RelativeRisk_computes_ratio_witness :
    ConditionOnWeeks (Table.pmf ⟨⟨[(38, 2), (39, 3)], "f"⟩⟩) 38
        "first babies" = .ok ⟨[(38, 2/5), (39, 3/5)], "first babies"⟩ ∧
    ConditionOnWeeks (Table.pmf ⟨⟨[(38, 1), (39, 1)], "o"⟩⟩) 38 "others" =
      .ok ⟨[(38, 1/2), (39, 1/2)], "others"⟩ ∧
    (⟨[(38, 1/2), (39, 1/2)], "others"⟩ : Pmf).Prob 38 ≠ 0 ∧
    RelativeRisk ⟨⟨[(38, 2), (39, 3)], "f"⟩⟩ ⟨⟨[(38, 1), (39, 1)], "o"⟩⟩ 38 =
      .ok none ∧
    ComputeRelativeRisk ⟨[(38, 2/5), (39, 3/5)], "first babies"⟩
        ⟨[(38, 1/2), (39, 1/2)], "others"⟩ 38 =
      .ok ((⟨[(38, 2/5), (39, 3/5)], "first babies"⟩ : Pmf).Prob 38 /
        (⟨[(38, 1/2), (39, 1/2)], "others"⟩ : Pmf).Prob 38) := by
  have e1 : ConditionOnWeeks (Table.pmf ⟨⟨[(38, 2), (39, 3)], "f"⟩⟩) 38
      "first babies" = .ok ⟨[(38, 2/5), (39, 3/5)], "first babies"⟩ := by
    norm_num [ConditionOnWeeks, ConditionPmf, Pmf.Copy, Pmf.Values,
      Pmf.Remove, Pmf.removeKey, Pmf.Normalize, Pmf.Total, List.filter,
      List.foldl]
  have e2 : ConditionOnWeeks (Table.pmf ⟨⟨[(38, 1), (39, 1)], "o"⟩⟩) 38
      "others" = .ok ⟨[(38, 1/2), (39, 1/2)], "others"⟩ := by
    norm_num [ConditionOnWeeks, ConditionPmf, Pmf.Copy, Pmf.Values,
      Pmf.Remove, Pmf.removeKey, Pmf.Normalize, Pmf.Total, List.filter,
      List.foldl]
  have e3 : (⟨[(38, 1/2), (39, 1/2)], "others"⟩ : Pmf).Prob 38 ≠ 0 := by
    norm_num [Pmf.Prob, Pmf.probOf]
  have h := RelativeRisk_computes_ratio_returns_none
    ⟨⟨[(38, 2), (39, 3)], "f"⟩⟩ ⟨⟨[(38, 1), (39, 1)], "o"⟩⟩ 38
    ⟨[(38, 2/5), (39, 3/5)], "first babies"⟩
    ⟨[(38, 1/2), (39, 1/2)], "others"⟩ e1 e2 e3
  exact ⟨e1, e2, e3, h.1, h.2⟩

/-- Claim C8: on the heap model, `Copy(name)` allocates a fresh object whose
mapping is value-equal to the source's and whose reference differs from the
source's, leaving the source object untouched; consequently `ConditionPmf`,
which removes values only from the copy, leaves the original object's
`Values()` and `Prob()` results unchanged. -/
theorem Copy_independent_ConditionPmf_frame (s : Store) (r : Nat)
    (filter_func : ℚ → Bool) (name : String) (hr : r < s.length) :
    ((getObj (CopyS s r name).2 (CopyS s r name).1).d = (getObj s r).d ∧
     (getObj (CopyS s r name).2 (CopyS s r name).1).name = name ∧
     (CopyS s r name).1 ≠ r ∧
     getObj (CopyS s r name).2 r = getObj s r) ∧
    (∀ rcond scond, ConditionPmfS s r filter_func name = .ok (rcond, scond) →
      getObj scond r = getObj s r ∧
      (getObj scond r).Values = (getObj s r).Values ∧
      ∀ v, (getObj scond r).Prob v = (getObj s r).Prob v) := by
  have hne : r ≠ s.length := Nat.ne_of_lt hr
  constructor
  · refine ⟨?_, ?_, hne.symm, getObj_append_lt s _ r hr⟩
    · show (getObj (s ++ [⟨(getObj s r).d, name⟩]) s.length).d = (getObj s r).d
      rw [getObj_append_len]
    · show (getObj (s ++ [⟨(getObj s r).d, name⟩]) s.length).name = name
      rw [getObj_append_len]
  · intro rcond scond hok
    unfold ConditionPmfS CopyS alloc at hok
    replace hok : (match NormalizeS
        ((((getObj (s ++ [⟨(getObj s r).d, name⟩]) r).Values.filter
            filter_func)).foldl
          (fun st val => RemoveS st s.length val)
          (s ++ [⟨(getObj s r).d, name⟩]))
        s.length with
      | Except.error e => Except.error e
      | Except.ok s3 => Except.ok (s.length, s3)) =
        Except.ok (rcond, scond) := hok
    cases hN : NormalizeS
        ((((getObj (s ++ [⟨(getObj s r).d, name⟩]) r).Values.filter
            filter_func)).foldl
          (fun st val => RemoveS st s.length val)
          (s ++ [⟨(getObj s r).d, name⟩]))
        s.length with
    | error e =>
      rw [hN] at hok
      exact absurd hok (by simp)
    | ok s3 =>
      rw [hN] at hok
      have hsc : s3 = scond := by
        injection hok with hok
        exact congrArg Prod.snd hok
      subst hsc
      have e1 : getObj s3 r =
          getObj ((((getObj (s ++ [⟨(getObj s r).d, name⟩]) r).Values.filter
              filter_func)).foldl
            (fun st val => RemoveS st s.length val)
            (s ++ [⟨(getObj s r).d, name⟩])) r :=
        NormalizeS_ok_getObj_ne _ _ _ _ hne hN
      have e2 : getObj ((((getObj (s ++ [⟨(getObj s r).d, name⟩]) r).Values.filter
              filter_func)).foldl
            (fun st val => RemoveS st s.length val)
            (s ++ [⟨(getObj s r).d, name⟩])) r =
          getObj (s ++ [⟨(getObj s r).d, name⟩]) r :=
        foldl_RemoveS_getObj_ne _ _ _ _ hne
      have e3 : getObj (s ++ [⟨(getObj s r).d, name⟩]) r = getObj s r :=
        getObj_append_lt s _ r hr
      have e : getObj s3 r = getObj s r := by rw [e1, e2, e3]
      exact ⟨e, by rw [e], fun v => by rw [e]⟩

theorem Copy_independent_frame_witness :
    (0 : Nat) < ([⟨[(38, 1), (39, 1)], "w"⟩] : Store).length ∧
    getObj (CopyS [⟨[(38, 1), (39, 1)], "w"⟩] 0 "c").2 0 =
      getObj [⟨[(38, 1), (39, 1)], "w"⟩] 0 :=
  ⟨by decide,
    (Copy_independent_ConditionPmf_frame [⟨[(38, 1), (39, 1)], "w"⟩] 0
      (fun x => decide (x < 39)) "c" (by decide)).1.2.2.2⟩

/-- Claim C10: whenever `Render()` yields at least two x values (so
`min(Diff(xs))` succeeds), `myplot.Hist` raises `NameError` and never
produces a bar plot, because `pyplot.bar` is passed the unbound identifier
`bar_options` instead of the `options` dict built just above it. -/
theorem Hist_raises_NameError (xs fs : List ℚ) (h : 2 ≤ xs.length) :
    myplot.Hist xs fs = .error .NameError := by
  have hlen : 0 < (myplot.Diff xs).length := by
    unfold myplot.Diff
    rw [List.length_map, List.length_range]
    omega
  obtain ⟨y, ys, hd⟩ :=
    List.exists_cons_of_ne_nil (List.ne_nil_of_length_pos hlen)
  unfold myplot.Hist
  rw [hd]
  have hres : myplot.resolves "bar_options" = false := by decide
  simp only [myplot.listMin, hres]
  simp

theorem Hist_raises_NameError_witness :
    2 ≤ ([1, 2] : List ℚ).length ∧
    myplot.Hist [1, 2] [3, 4] = .error .NameError :=
  ⟨by decide, Hist_raises_NameError [1, 2] [3, 4] (by decide)⟩

end ThinkStats
